import Mathlib

/-!
Shallow embedding of `nibabel/pointset.py` (point-set structures: `Pointset`,
`TriangularMesh`, `TriMeshFamily`, `Grid`, `GridIndices`).

Numeric arrays are embedded as lists of rows over `ℚ` (exact rationals standing
for the floating values; `np.allclose` is embedded with its documented
tolerance formula).  Fallible Python code (constructors that may raise,
indexing that may raise) is embedded with `Except Err`.
-/

/-- A 2-D numeric array as a list of rows. -/
abbrev Mat := List (List ℚ)

/-- `shape[1]` of a 2-D array: the length of its first row (0 for an empty list). -/
def ncols (m : Mat) : ℕ := (m.getD 0 []).length

/-- A list of rows represents a 2-D array when all rows have the same length. -/
def isRect (m : Mat) : Prop := ∀ r ∈ m, r.length = ncols m

instance (m : Mat) : Decidable (isRect m) := by
  unfold isRect; infer_instance

/-- Entry `m[i, j]`, defaulting to 0 out of range (in-range use only). -/
def entry (m : Mat) (i j : ℕ) : ℚ := (m.getD i []).getD j 0

/-- numpy `a @ b` for 2-D operands: standard matrix product
`(a @ b)[i, j] = Σ_k a[i, k] * b[k, j]`, with `a.shape[0]` rows and
`b.shape[1]` columns. -/
def matmul (a b : Mat) : Mat :=
  (List.range a.length).map fun i =>
    (List.range (ncols b)).map fun j =>
      ∑ k ∈ Finset.range b.length, entry a i k * entry b k j

/-- numpy `m.T` for a 2-D array: row `j` of the result is column `j` of `m`. -/
def transposeM (m : Mat) : Mat :=
  (List.range (ncols m)).map fun j => m.map fun r => r.getD j 0

/-- `np.eye n`: the n-by-n identity matrix. -/
def eyeQ (n : ℕ) : Mat :=
  (List.range n).map fun i => (List.range n).map fun j => if i = j then (1 : ℚ) else 0

/-- `abs` on the rationals (an executable spelling of `|·|`). -/
def absQ (x : ℚ) : ℚ := if x < 0 then -x else x

theorem absQ_eq_abs (x : ℚ) : absQ x = |x| := by
  unfold absQ
  rcases lt_or_le x 0 with h | h
  · rw [if_pos h, abs_of_neg h]
  · rw [if_neg (not_lt.mpr h), abs_of_nonneg h]

/-- `np.allclose(a, b)` for same-shaped 2-D arrays: every entry satisfies
`|x - y| ≤ atol + rtol * |y|` with the numpy defaults `atol = 1e-8`,
`rtol = 1e-5`.  (The two uses in the source always compare same-shaped
arrays; a shape mismatch yields `false` here.) -/
def np_allclose (a b : Mat) : Bool :=
  (a.length == b.length) &&
    (List.zip a b).all fun rp =>
      (rp.1.length == rp.2.length) &&
        (List.zip rp.1 rp.2).all fun xy =>
          decide (absQ (xy.1 - xy.2) ≤ 1 / 100000000 + 1 / 100000 * absQ xy.2)

/-- Python exceptions raised by the embedded code.  `shapeError` and
`invalidTransformError` are the spec's taxonomy names for the two
construction-time `ValueError`s of `Pointset.__init__`. -/
inductive Err
  | shapeError
  | invalidTransformError
  | typeError
  | indexError
  | keyError
  | stopIteration
  | valueError
deriving DecidableEq

instance {ε α : Type} [DecidableEq ε] [DecidableEq α] : DecidableEq (Except ε α) :=
  fun x y =>
    match x, y with
    | .ok a, .ok b =>
      if h : a = b then isTrue (by rw [h]) else isFalse fun hh => h (Except.ok.inj hh)
    | .error a, .error b =>
      if h : a = b then isTrue (by rw [h]) else isFalse fun hh => h (Except.error.inj hh)
    | .ok _, .error _ => isFalse fun hh => Except.noConfusion hh
    | .error _, .ok _ => isFalse fun hh => Except.noConfusion hh

/-- The `Pointset` dataclass: a coordinate array, an affine and a
homogeneity flag. -/
structure Pointset where
  coordinates : Mat
  affine : Mat
  homogeneous : Bool
deriving DecidableEq

/-- `self.dim` computed from the fields used by `__init__`:
`coordinates.shape[1] - homogeneous`. -/
def dimOf (coordinates : Mat) (homogeneous : Bool) : ℕ :=
  ncols coordinates - (if homogeneous then 1 else 0)

/-- `Pointset.dim`: the dimensionality of the space the coordinates are in. -/
def Pointset.dim (p : Pointset) : ℕ := dimOf p.coordinates p.homogeneous

/-- `affine[-1]`: the last row of the affine. -/
def lastRow (aff : Mat) : List ℚ := aff.getD (aff.length - 1) []

/-- The test `np.any(affine[-1, :-1] != 0) or affine[-1, -1] != 1` of
`Pointset.__init__`. -/
def lastRowInvalid (aff : Mat) : Bool :=
  ((lastRow aff).dropLast.any fun x => decide (x ≠ 0)) ||
    decide ((lastRow aff).getLastD 0 ≠ 1)

/-- `Pointset.__init__`: stores the fields, defaults the affine to
`np.eye(dim + 1)`, then validates the affine's shape and last row,
raising `ValueError` (tagged `shapeError` / `invalidTransformError` per the
spec's taxonomy) on violation.  Failure produces no object. -/
def Pointset.init (coordinates : Mat) (affine : Option Mat) (homogeneous : Bool) :
    Except Err Pointset :=
  let dim := dimOf coordinates homogeneous
  let aff := match affine with
    | some a => a
    | none => eyeQ (dim + 1)
  if ¬(aff.length = dim + 1 ∧ ncols aff = dim + 1) then .error .shapeError
  else if lastRowInvalid aff then .error .invalidTransformError
  else .ok ⟨coordinates, aff, homogeneous⟩

/-- `Pointset._homogeneous_coords`: the coordinates if already homogeneous,
else the coordinates with a ones column appended.

Modelled from the spec: the ones column is built in the source with
`strided_scalar` from `nibabel.fileslice`, which is not under `src/`; per the
spec (§4.2 step 3) it is "a column of ones" (the striding is
"purely an optimization"), so `np.hstack((coords, ones))` appends `1` to each
row. -/
def Pointset.homogeneous_coords (p : Pointset) : Mat :=
  if p.homogeneous then p.coordinates
  else p.coordinates.map fun r => r ++ [1]

/-- `Pointset.get_coords(*, as_homogeneous)`, translated line by line:
the identity test `np.allclose(affine, np.eye(affine.shape[0]))`, the
fast path returning the raw coordinate array, then homogenisation,
the conditional multiply `(affine @ coords.T).T`, and dropping the last
column (`coords[:, :-1]`) for Cartesian output. -/
def Pointset.get_coords (p : Pointset) (as_homogeneous : Bool) : Mat :=
  let ident := np_allclose p.affine (eyeQ p.affine.length)
  if p.homogeneous == as_homogeneous && ident then p.coordinates
  else
    let coords := p.homogeneous_coords
    let coords := if !ident then transposeM (matmul p.affine (transposeM coords)) else coords
    if !as_homogeneous then coords.map List.dropLast else coords

/-- `Pointset.__rmatmul__`: `affine @ pointset` returns
`replace(self, affine=np.asanyarray(affine) @ self.affine)`.  For a dataclass
with a custom `__init__`, `dataclasses.replace` re-invokes `__init__` with the
replaced fields, so validation re-runs. -/
def Pointset.rmatmul (affine : Mat) (p : Pointset) : Except Err Pointset :=
  Pointset.init p.coordinates (some (matmul affine p.affine)) p.homogeneous

/-- A well-formed affine for dimensionality `dim`: the square shape and the
homogeneous last row that `Pointset.__init__` enforces, plus rectangularity
(automatic for real numpy arrays). -/
def validAffineFor (dim : ℕ) (aff : Mat) : Prop :=
  aff.length = dim + 1 ∧ (∀ r ∈ aff, r.length = dim + 1) ∧ lastRowInvalid aff = false

instance (dim : ℕ) (aff : Mat) : Decidable (validAffineFor dim aff) := by
  unfold validAffineFor; infer_instance

/-- A `Pointset` as produced by a successful `__init__` from a real numpy
coordinate array: rectangular coordinates and a valid affine. -/
def Pointset.wf (p : Pointset) : Prop :=
  isRect p.coordinates ∧ validAffineFor p.dim p.affine

instance (p : Pointset) : Decidable p.wf := by
  unfold Pointset.wf; infer_instance

/-- The `get_coords` contract in the spec's words (for comparison with the
source translation `Pointset.get_coords`): coordinates are homogenised by
appending a ones column if not already homogeneous, left-multiplied by the
affine as `(affine @ coords.T).T` when the affine is not (within tolerance)
the identity, and the last column is dropped when Cartesian output is
requested. -/
def get_coords_spec (p : Pointset) (as_homogeneous : Bool) : Mat :=
  let hom := if p.homogeneous then p.coordinates else p.coordinates.map fun r => r ++ [1]
  let t := if np_allclose p.affine (eyeQ p.affine.length) then hom
    else transposeM (matmul p.affine (transposeM hom))
  if as_homogeneous then t else t.map List.dropLast

/-! ### Triangular meshes -/

/-- Python values that appear as keyword arguments in the embedded calls. -/
inductive PyVal
  | noneV
  | boolV (b : Bool)
deriving DecidableEq

/-- The keyword parameters accepted by `Pointset.get_coords`: its Python
signature is `get_coords(self, *, as_homogeneous: bool = False)`. -/
def get_coords_keyword_list : List String := ["as_homogeneous"]

/-- Python call semantics for `Pointset.get_coords` with explicit keyword
arguments: calling a function with a keyword argument its signature does not
accept raises `TypeError`.  (`TriangularMesh.get_mesh` calls
`self.get_coords(name=name)`, and `TriangularMesh` does not override
`get_coords`, so the call goes to `Pointset.get_coords`, which accepts only
`as_homogeneous`.) -/
def Pointset.get_coords_call (p : Pointset) (kwargs : List (String × PyVal)) :
    Except Err Mat :=
  if kwargs.all fun kv => get_coords_keyword_list.contains kv.1 then
    .ok (p.get_coords (match List.lookup ("as_homogeneous") kwargs with
      | some (.boolV b) => b
      | _ => false))
  else .error .typeError

/-- The shapes of input that `TriangularMesh.__init__` can receive: a 2-tuple
of arrays, a tuple of some other length, an object exposing
`.coords`/`.triangles` attributes, an object exposing `.get_mesh()`, or a
`dict` (which is none of these: dicts expose none of those attributes). -/
inductive MeshInput
  | pair (coords triangles : Mat)
  | tuple3 (x y z : Mat)
  | attrObj (coords triangles : Mat)
  | accessorObj (coords triangles : Mat)
  | dictInput
deriving DecidableEq

/-- The `TriangularMesh` state: the underlying `Pointset` built by
`super().__init__(coords)` plus the stored `_triangles` table. -/
structure TriangularMesh where
  toPointset : Pointset
  triangles : Mat
deriving DecidableEq

/-- `TriangularMesh.__init__` dispatch: a 2-tuple is unpacked; an object with
`coords`/`triangles` attributes is read; an object with `get_mesh` is called;
anything else raises `ValueError`.  The super call `Pointset.__init__(coords)`
uses the default (`None`) affine and `homogeneous=False`. -/
def TriangularMesh.init (mesh : MeshInput) : Except Err TriangularMesh :=
  match mesh with
  | .pair c t => (Pointset.init c none false).map fun p => ⟨p, t⟩
  | .tuple3 _ _ _ => .error .valueError
  | .attrObj c t => (Pointset.init c none false).map fun p => ⟨p, t⟩
  | .accessorObj c t => (Pointset.init c none false).map fun p => ⟨p, t⟩
  | .dictInput => .error .valueError

/-- `TriangularMesh.get_mesh(name=None)`:
`return self.get_coords(name=name), self.get_triangles()`.  The `get_coords`
call passes the keyword `name`. -/
def TriangularMesh.get_mesh (m : TriangularMesh) : Except Err (Mat × Mat) :=
  (m.toPointset.get_coords_call [("name", PyVal.noneV)]).map fun c =>
    (c, m.triangles)

/-- The `TriMeshFamily` state: the shared `_triangles` table (initialised to
`None`), the `_coords` mapping (insertion-ordered), and the default name. -/
structure TriMeshFamily where
  triangles : Option Mat
  coords : List (String × Mat)
  defaultName : String
deriving DecidableEq

/-- Insertion into a Python `dict` modelled on an insertion-ordered
association list: an existing key keeps its position and gets the new value,
a new key is appended. -/
def upsertCoords (l : List (String × Mat)) (k : String) (v : Mat) :
    List (String × Mat) :=
  if l.any fun kv => kv.1 == k then
    l.map fun kv => if kv.1 == k then (k, v) else kv
  else l ++ [(k, v)]

/-- `TriMeshFamily.__init__`: for each entry of the mapping, build a temporary
`TriangularMesh` and call `.get_mesh()`; keep the first entry's triangle
table; store each entry's coordinates under its name; the default name is the
explicit parameter or else the first key (`next(iter(self._coords))`, which
raises `StopIteration` when the mapping is empty). -/
def TriMeshFamily.init (mapping : List (String × MeshInput)) (defName : Option String) :
    Except Err TriMeshFamily := do
  let st ← mapping.foldlM (fun (st : Option Mat × List (String × Mat)) nm => do
    let tm ← TriangularMesh.init nm.2
    let cm ← tm.get_mesh
    let tri := match st.1 with
      | none => some cm.2
      | some t => some t
    pure (tri, upsertCoords st.2 nm.1 cm.1)) (none, [])
  match defName with
  | some d => pure ⟨st.1, st.2, d⟩
  | none =>
    match st.2 with
    | [] => .error .stopIteration
    | (k, _) :: _ => pure ⟨st.1, st.2, k⟩

/-- `TriMeshFamily.get_names`: `list(self._coords)`, the keys in insertion
order. -/
def TriMeshFamily.get_names (f : TriMeshFamily) : List String :=
  f.coords.map Prod.fst

/-- `TriMeshFamily.get_coords(name=None)`: the default name when `name` is
`None`; an unregistered name raises `KeyError`. -/
def TriMeshFamily.get_coords (f : TriMeshFamily) (name : Option String) :
    Except Err Mat :=
  match List.lookup (name.getD f.defaultName) f.coords with
  | some c => .ok c
  | none => .error .keyError

/-! ### Grids and masks -/

/-- `np.c_[np.nonzero(mask_arr)]` for a 2-D boolean mask: the `[N, 2]` array
of index pairs of the true entries, in row-major scan order.  The subsequent
`astype(able_int_type(mask.shape))` (from `nibabel.casting`, not under `src/`)
only selects an integer element type that exactly fits the shape and does not
change the values. -/
def nonzeroPairs (mask : List (List Bool)) : List (List ℚ) :=
  (List.range mask.length).flatMap fun i =>
    (List.range (mask.getD i []).length).flatMap fun j =>
      if (mask.getD i []).getD j false then [[(i : ℚ), (j : ℚ)]] else []

/-- `Grid.from_mask` for a 2-D mask image, with the image's affine passed
explicitly (`SpatialImage` is an external collaborator: only its `dataobj`
and `affine` are consumed). -/
def Grid.from_mask (mask : List (List Bool)) (affine : Mat) : Except Err Pointset :=
  Pointset.init (nonzeroPairs mask) (some affine) false

/-- `Grid.to_mask(shape)` for a 2-D target shape, translated from
`mask_arr[np.asanyarray(self.coordinates)[:, :self.dim]] = True`: numpy
treats the 2-D integer array `coordinates[:, :dim]` as an index array along
axis 0 only, so every value occurring anywhere in it selects a whole row of
`mask_arr`, which is set to `True` (the `True` broadcasts over the selected
rows); a value out of range for axis 0 raises `IndexError`.  (Negative-index
wrapping is not modelled; coordinates produced by `from_mask` are
nonnegative.)  The returned `SpatialImage` is modelled by its boolean data
array. -/
def Grid.to_mask_withShape (g : Pointset) (shape : ℕ × ℕ) :
    Except Err (List (List Bool)) :=
  let idx := g.coordinates.flatMap fun r => r.take g.dim
  if idx.all fun v => (List.range shape.1).any fun r => decide ((r : ℚ) = v) then
    .ok ((List.range shape.1).map fun r =>
      if idx.any fun v => decide ((r : ℚ) = v) then List.replicate shape.2 true
      else List.replicate shape.2 false)
  else .error .indexError

/-- `Grid.to_mask(Grid.from_mask(mask), shape=mask.shape)`: the round trip of
C2. -/
def mask_roundtrip (mask : List (List Bool)) (affine : Mat) :
    Except Err (List (List Bool)) :=
  (Grid.from_mask mask affine).bind fun g =>
    Grid.to_mask_withShape g (mask.length, (mask.getD 0 []).length)

/-- `np.max` of a 1-D array (the maximum element; numpy rejects an empty
array, and the uses here are nonempty). -/
def npMaxList (l : List ℚ) : ℚ := l.foldl max (l.headD 0)

/-- `np.max(self.coordinates, axis=1)`: the per-ROW maximum (one value per
coordinate row). -/
def np_max_axis1 (m : Mat) : List ℚ := m.map npMaxList

/-- The default shape computed by `Grid.to_mask` when `shape is None`:
`tuple(np.max(self.coordinates, axis=1)[: self.dim])` — the first `dim`
entries of the vector of per-row maxima. -/
def Grid.to_mask_default_shape (g : Pointset) : List ℚ :=
  (np_max_axis1 g.coordinates).take g.dim

/-- Modelled from the spec: the default `to_mask` shape is the "per-axis
maximum coordinate value, inferred from the stored coordinates, across only
the first `dim` axes" — the maximum of each coordinate column `j < dim`. -/
def to_mask_shape_spec (g : Pointset) : List ℚ :=
  (List.range g.dim).map fun j => npMaxList (g.coordinates.map fun r => r.getD j 0)

/-! ### Lazy grid indices -/

/-- `math.prod` of a shape tuple. -/
def listProd : List ℕ → ℕ
  | [] => 1
  | s :: rest => s * listProd rest

/-- The `GridIndices` state: only `gridshape` determines the values
(`dtype`, chosen by `able_int_type`, affects the element type only and is not
modelled). -/
structure GridIndices where
  gridshape : List ℕ
deriving DecidableEq

/-- The stored `shape` attribute: `(math.prod(gridshape), len(gridshape))`. -/
def GridIndices.shape (g : GridIndices) : ℕ × ℕ :=
  (listProd g.gridshape, g.gridshape.length)

/-- `GridIndices.__array__`:
`np.reshape(np.meshgrid(*axes, copy=False, indexing='ij'), (len(axes), -1)).T`
with `axes = [np.arange(s) for s in gridshape]`.  Stacking the `'ij'`
meshgrid arrays, flattening each to a row and transposing enumerates the
Cartesian product of the per-axis ranges with the first axis varying slowest,
i.e. the lists `i :: row` for `i` in `range s` and `row` in the enumeration
of the remaining axes.  It is recomputed on every call — a pure function of
`gridshape` here, with nothing cached. -/
def gridArray : List ℕ → List (List ℕ)
  | [] => [[]]
  | s :: rest => (List.range s).flatMap fun i => (gridArray rest).map fun row => i :: row

def GridIndices.toArray (g : GridIndices) : List (List ℕ) := gridArray g.gridshape

/-- The spec's description of row `i`: the `i`-th tuple in row-major (`"ij"`)
order over the per-axis ranges — the mixed-radix digits of `i` with the first
axis most significant. -/
def rowMajorIndex : List ℕ → ℕ → List ℕ
  | [], _ => []
  | _ :: rest, i => (i / listProd rest) :: rowMajorIndex rest (i % listProd rest)

/-! ### Concrete inputs used by the witnesses -/

/-- An affine that is close to, but not exactly, the identity. -/
def nearIdentityW : Mat := [[1, 1 / 1000000000], [0, 1]]

/-- A concrete well-formed 2-D pointset. -/
def pointsetW : Pointset := ⟨[[1, 2]], [[1, 0, 5], [0, 1, 7], [0, 0, 1]], false⟩

/-- A concrete valid outer affine (scaling). -/
def outerW : Mat := [[2, 0, 0], [0, 1, 0], [0, 0, 1]]

/-- A concrete valid outer affine (translation). -/
def outerW2 : Mat := [[1, 0, 3], [0, 1, 0], [0, 0, 1]]

/-- A concrete triangle: three 2-D vertices. -/
def meshCoordsW : Mat := [[0, 0], [1, 0], [0, 1]]

/-- A second coordinate array with the same topology. -/
def meshCoordsW2 : Mat := [[0, 0], [2, 0], [0, 2]]

/-- The shared one-triangle face table. -/
def meshTrianglesW : Mat := [[0, 1, 2]]

/-! ### Basic facts about the embedded numpy operations -/

theorem length_matmul (a b : Mat) : (matmul a b).length = a.length := by
  simp [matmul]

theorem matmul_getD_row (a b : Mat) (i : ℕ) (h : i < a.length) :
    (matmul a b).getD i [] =
      (List.range (ncols b)).map fun j =>
        ∑ k ∈ Finset.range b.length, entry a i k * entry b k j := by
  unfold matmul
  rw [List.getD_eq_getElem _ _ (by simpa using h), List.getElem_map, List.getElem_range]

theorem matmul_row_length (a b : Mat) (r : List ℚ) (hr : r ∈ matmul a b) :
    r.length = ncols b := by
  unfold matmul at hr
  obtain ⟨i, _, rfl⟩ := List.mem_map.mp hr
  simp

theorem ncols_matmul (a b : Mat) (h : 0 < a.length) : ncols (matmul a b) = ncols b := by
  show ((matmul a b).getD 0 []).length = ncols b
  rw [matmul_getD_row a b 0 h]
  simp

theorem entry_matmul (a b : Mat) (i j : ℕ) (hi : i < a.length) (hj : j < ncols b) :
    entry (matmul a b) i j =
      ∑ k ∈ Finset.range b.length, entry a i k * entry b k j := by
  show ((matmul a b).getD i []).getD j 0 = _
  rw [matmul_getD_row a b i hi,
    List.getD_eq_getElem _ _ (by simpa using hj), List.getElem_map, List.getElem_range]

/-- Associativity of the embedded matrix product, for operands whose inner
dimensions agree (as numpy requires). -/
theorem matmul_assoc (a b c : Mat) (hbc : ncols b = c.length) (hb : 0 < b.length) :
    matmul (matmul a b) c = matmul a (matmul b c) := by
  show
    (List.range (matmul a b).length).map _ = (List.range a.length).map _
  rw [length_matmul]
  refine List.map_congr_left fun i hi => ?_
  rw [List.mem_range] at hi
  show (List.range (ncols c)).map _ = (List.range (ncols (matmul b c))).map _
  rw [ncols_matmul b c hb]
  refine List.map_congr_left fun j hj => ?_
  rw [List.mem_range] at hj
  show (∑ k ∈ Finset.range c.length, entry (matmul a b) i k * entry c k j) =
    ∑ k ∈ Finset.range (matmul b c).length, entry a i k * entry (matmul b c) k j
  rw [length_matmul]
  calc
    (∑ k ∈ Finset.range c.length, entry (matmul a b) i k * entry c k j)
        = ∑ k ∈ Finset.range c.length, ∑ l ∈ Finset.range b.length,
            entry a i l * entry b l k * entry c k j := by
          refine Finset.sum_congr rfl fun k hk => ?_
          rw [Finset.mem_range] at hk
          rw [entry_matmul a b i k hi (hbc ▸ hk), Finset.sum_mul]
    _ = ∑ l ∈ Finset.range b.length, ∑ k ∈ Finset.range c.length,
            entry a i l * (entry b l k * entry c k j) := by
          rw [Finset.sum_comm]
          exact Finset.sum_congr rfl fun l _ => Finset.sum_congr rfl fun k _ => by ring
    _ = ∑ k ∈ Finset.range b.length, entry a i k * entry (matmul b c) k j := by
          refine Finset.sum_congr rfl fun l hl => ?_
          rw [Finset.mem_range] at hl
          rw [entry_matmul b c l j hl hj, Finset.mul_sum]

theorem length_eyeQ (n : ℕ) : (eyeQ n).length = n := by simp [eyeQ]

theorem eyeQ_getD_row (n i : ℕ) (h : i < n) :
    (eyeQ n).getD i [] = (List.range n).map fun j => if i = j then (1 : ℚ) else 0 := by
  unfold eyeQ
  rw [List.getD_eq_getElem _ _ (by simpa using h), List.getElem_map, List.getElem_range]

theorem ncols_eyeQ (n : ℕ) (h : 0 < n) : ncols (eyeQ n) = n := by
  unfold ncols
  rw [eyeQ_getD_row n 0 h]
  simp

theorem eyeQ_row_length (n : ℕ) (r : List ℚ) (hr : r ∈ eyeQ n) : r.length = n := by
  unfold eyeQ at hr
  obtain ⟨i, _, rfl⟩ := List.mem_map.mp hr
  simp

theorem lastRow_eyeQ (n : ℕ) :
    lastRow (eyeQ (n + 1)) = ((List.range n).map fun _ => (0 : ℚ)) ++ [1] := by
  unfold lastRow
  rw [length_eyeQ]
  simp only [Nat.add_sub_cancel]
  rw [eyeQ_getD_row (n + 1) n (by omega)]
  rw [List.range_succ, List.map_append]
  congr 1
  · exact List.map_congr_left fun j hj => by
      rw [List.mem_range] at hj
      simp [Nat.ne_of_gt hj]
  · simp

theorem lastRowInvalid_eyeQ (n : ℕ) : lastRowInvalid (eyeQ (n + 1)) = false := by
  unfold lastRowInvalid
  rw [lastRow_eyeQ, List.dropLast_concat, List.getLastD_concat]
  simp

/-- `Pointset.__init__` with the default (`None`) affine always succeeds and
stores `np.eye(dim + 1)`. -/
theorem init_default_ok (c : Mat) (h : Bool) :
    Pointset.init c none h = .ok ⟨c, eyeQ (dimOf c h + 1), h⟩ := by
  have h1 : (eyeQ (dimOf c h + 1)).length = dimOf c h + 1 := length_eyeQ _
  have h2 : ncols (eyeQ (dimOf c h + 1)) = dimOf c h + 1 := ncols_eyeQ _ (by omega)
  simp [Pointset.init, h1, h2, lastRowInvalid_eyeQ]

/-- The last-row test of `__init__` fails exactly when the last row is not
`[0, ..., 0, 1]`. -/
theorem lastRowInvalid_eq_false_iff (aff : Mat) (d : ℕ)
    (hlen : (lastRow aff).length = d + 1) :
    lastRowInvalid aff = false ↔ lastRow aff = List.replicate d (0 : ℚ) ++ [1] := by
  have hne : lastRow aff ≠ [] := by
    intro hh
    rw [hh] at hlen
    simp at hlen
  have hdecomp : (lastRow aff).dropLast ++ [(lastRow aff).getLast hne] = lastRow aff :=
    List.dropLast_append_getLast hne
  have hdl : (lastRow aff).dropLast.length = d := by
    rw [List.length_dropLast, hlen]
    omega
  constructor
  · intro hv
    unfold lastRowInvalid at hv
    rw [Bool.or_eq_false_iff] at hv
    obtain ⟨h0, h1⟩ := hv
    rw [List.any_eq_false] at h0
    rw [decide_eq_false_iff_not, not_not] at h1
    have hz : (lastRow aff).dropLast = List.replicate d (0 : ℚ) := by
      rw [List.eq_replicate_iff]
      refine ⟨hdl, fun b hb => ?_⟩
      have := h0 b hb
      simpa using this
    have hlast : (lastRow aff).getLast hne = 1 := by
      have hgl := List.getLastD_eq_getLast? (0 : ℚ) (lastRow aff)
      rw [List.getLast?_eq_getLast _ hne] at hgl
      rw [← h1, hgl]
      rfl
    rw [← hdecomp, hz, hlast]
  · intro hv
    unfold lastRowInvalid
    rw [Bool.or_eq_false_iff]
    constructor
    · rw [List.any_eq_false]
      intro x hx
      rw [hv, List.dropLast_concat] at hx
      have := List.eq_of_mem_replicate hx
      simpa using this
    · rw [decide_eq_false_iff_not, not_not, hv, List.getLastD_concat]

theorem getD_zerosOne (d k : ℕ) (hk : k < d + 1) :
    (List.replicate d (0 : ℚ) ++ [1]).getD k 0 = if k = d then 1 else 0 := by
  rcases Nat.lt_or_ge k d with h | h
  · rw [if_neg (Nat.ne_of_lt h)]
    rw [List.getD_eq_getElem _ _ (by simp; omega)]
    rw [List.getElem_append_left (by simpa using h)]
    exact List.getElem_replicate ..
  · have hkd : k = d := by omega
    rw [if_pos hkd, hkd]
    rw [List.getD_eq_getElem _ _ (by simp)]
    rw [List.getElem_append_right (by simp)]
    simp

/-- Multiplying on the left by a matrix whose last row is `[0, ..., 0, 1]`
preserves the last row. -/
theorem lastRow_matmul (a b : Mat) (d : ℕ) (ha_len : a.length = d + 1)
    (hb_len : b.length = d + 1) (hb_rect : ∀ r ∈ b, r.length = ncols b)
    (ha_last : lastRow a = List.replicate d (0 : ℚ) ++ [1]) :
    lastRow (matmul a b) = lastRow b := by
  have hda : a.getD d [] = lastRow a := by
    unfold lastRow
    rw [ha_len]
    simp only [Nat.add_sub_cancel]
  have hentry_a : ∀ k, k < d + 1 → entry a d k = if k = d then 1 else 0 := by
    intro k hk
    unfold entry
    rw [hda, ha_last]
    exact getD_zerosOne d k hk
  have hrow : lastRow (matmul a b) =
      (List.range (ncols b)).map fun j => entry b d j := by
    unfold lastRow
    rw [length_matmul, ha_len]
    simp only [Nat.add_sub_cancel]
    rw [matmul_getD_row a b d (by omega)]
    refine List.map_congr_left fun j _ => ?_
    rw [hb_len]
    rw [Finset.sum_eq_single_of_mem d (by simp)]
    · rw [hentry_a d (by omega), if_pos rfl, one_mul]
    · intro k hk hkd
      rw [Finset.mem_range] at hk
      rw [hentry_a k hk, if_neg hkd, zero_mul]
  have hlb_mem : lastRow b ∈ b := by
    unfold lastRow
    rw [List.getD_eq_getElem _ _ (by omega)]
    exact List.getElem_mem _
  have hlb_len : (lastRow b).length = ncols b := hb_rect _ hlb_mem
  have hlrb : b.getD d [] = lastRow b := by
    unfold lastRow
    rw [hb_len]
    simp only [Nat.add_sub_cancel]
  rw [hrow]
  refine List.ext_getElem (by simp [hlb_len]) fun j h1 h2 => ?_
  rw [List.getElem_map, List.getElem_range]
  show (b.getD d []).getD j 0 = (lastRow b)[j]
  rw [hlrb]
  exact List.getD_eq_getElem _ _ h2

theorem validAffineFor_ncols (d : ℕ) (a : Mat) (h : validAffineFor d a) :
    ncols a = d + 1 := by
  have h0 : 0 < a.length := by rw [h.1]; omega
  have hm : a.getD 0 [] ∈ a := by
    rw [List.getD_eq_getElem _ _ h0]
    exact List.getElem_mem _
  exact h.2.1 _ hm

theorem validAffineFor_lastRow (d : ℕ) (a : Mat) (h : validAffineFor d a) :
    lastRow a = List.replicate d (0 : ℚ) ++ [1] := by
  have hm : lastRow a ∈ a := by
    unfold lastRow
    rw [List.getD_eq_getElem _ _ (by rw [h.1]; omega)]
    exact List.getElem_mem _
  have hlen : (lastRow a).length = d + 1 := h.2.1 _ hm
  exact (lastRowInvalid_eq_false_iff a d hlen).mp h.2.2

/-- The product of two valid homogeneous affines (same size) is a valid
homogeneous affine: composition never breaks the `__init__` invariants. -/
theorem validAffineFor_matmul (d : ℕ) (a b : Mat)
    (ha : validAffineFor d a) (hb : validAffineFor d b) :
    validAffineFor d (matmul a b) := by
  have hnb : ncols b = d + 1 := validAffineFor_ncols d b hb
  have hlr : lastRow (matmul a b) = lastRow b :=
    lastRow_matmul a b d ha.1 hb.1 (fun r hr => by rw [hb.2.1 r hr, hnb])
      (validAffineFor_lastRow d a ha)
  refine ⟨by rw [length_matmul, ha.1], fun r hr => ?_, ?_⟩
  · rw [matmul_row_length a b r hr, hnb]
  · have hlenlr : (lastRow (matmul a b)).length = d + 1 := by
      rw [hlr, validAffineFor_lastRow d b hb]
      simp
    rw [lastRowInvalid_eq_false_iff _ d hlenlr, hlr]
    exact validAffineFor_lastRow d b hb

/-- `__rmatmul__` on a well-formed pointset with a valid same-size outer
affine succeeds: `dataclasses.replace` re-runs `__init__` and the composed
affine passes validation. -/
theorem rmatmul_ok (M : Mat) (p : Pointset) (hp : p.wf) (hM : validAffineFor p.dim M) :
    Pointset.rmatmul M p = .ok ⟨p.coordinates, matmul M p.affine, p.homogeneous⟩ := by
  have hv : validAffineFor p.dim (matmul M p.affine) :=
    validAffineFor_matmul p.dim M p.affine hM hp.2
  have h1 : (matmul M p.affine).length = p.dim + 1 := hv.1
  have h2 : ncols (matmul M p.affine) = p.dim + 1 := validAffineFor_ncols _ _ hv
  have h3 : lastRowInvalid (matmul M p.affine) = false := hv.2.2
  rw [show p.dim = dimOf p.coordinates p.homogeneous from rfl] at h1 h2
  simp [Pointset.rmatmul, Pointset.init, h1, h2, h3]

/-! ### Claim theorems about `Pointset` -/

/-- C6: when the affine passes the approximate-identity test
`np.allclose(affine, np.eye(affine.shape[0]))` (a tolerance check, not exact
bitwise equality) and the stored homogeneity flag equals the requested
`as_homogeneous`, `get_coords` returns the raw coordinate array unchanged,
performing no transform or column manipulation. -/
theorem get_coords_identity_fast_path (p : Pointset) (ah : Bool)
    (hid : np_allclose p.affine (eyeQ p.affine.length) = true)
    (hflag : p.homogeneous = ah) :
    p.get_coords ah = p.coordinates := by
  simp [Pointset.get_coords, hflag, hid]

theorem get_coords_identity_fast_path_witness :
    np_allclose nearIdentityW (eyeQ 2) = true ∧
      nearIdentityW ≠ eyeQ 2 ∧
      Pointset.get_coords ⟨[[3, 4]], nearIdentityW, true⟩ true = [[3, 4]] := by
  have hid : np_allclose nearIdentityW (eyeQ 2) = true := by
    norm_num [np_allclose, absQ, eyeQ, nearIdentityW, List.range_succ]
  exact ⟨hid, by norm_num [nearIdentityW, eyeQ, List.range_succ],
    get_coords_identity_fast_path ⟨[[3, 4]], nearIdentityW, true⟩ true hid rfl⟩

/-- C8: constructing a `Pointset` whose (rectangular) affine has shape other
than `(dim+1, dim+1)` raises the shape `ValueError` (`ShapeError` in the
spec's taxonomy), and one whose affine has the right shape but whose last row
differs from `[0, ..., 0, 1]` (exact comparison) raises the transform
`ValueError` (`InvalidTransformError`); in both cases the error is raised at
construction time and no object is produced. -/
theorem pointset_init_validation_errors (c aff : Mat) (hom : Bool)
    (hrect : ∀ r ∈ aff, r.length = ncols aff) :
    ((aff.length, ncols aff) ≠ (dimOf c hom + 1, dimOf c hom + 1) →
      Pointset.init c (some aff) hom = .error .shapeError) ∧
    ((aff.length, ncols aff) = (dimOf c hom + 1, dimOf c hom + 1) →
      lastRow aff ≠ List.replicate (dimOf c hom) (0 : ℚ) ++ [1] →
      Pointset.init c (some aff) hom = .error .invalidTransformError) := by
  constructor
  · intro hne
    have hcond : ¬(aff.length = dimOf c hom + 1 ∧ ncols aff = dimOf c hom + 1) := by
      intro hx
      exact hne (by rw [hx.1, hx.2])
    simp [Pointset.init, hcond]
  · intro heq hbad
    rw [Prod.mk.injEq] at heq
    have hlrlen : (lastRow aff).length = dimOf c hom + 1 := by
      have hm : lastRow aff ∈ aff := by
        unfold lastRow
        rw [List.getD_eq_getElem _ _ (by omega)]
        exact List.getElem_mem _
      rw [hrect _ hm, heq.2]
    have hinv : lastRowInvalid aff = true := by
      cases hflag : lastRowInvalid aff with
      | false => exact absurd ((lastRowInvalid_eq_false_iff aff _ hlrlen).mp hflag) hbad
      | true => rfl
    simp [Pointset.init, heq.1, heq.2, hinv]

theorem pointset_init_validation_errors_witness :
    Pointset.init [[1, 2]] (some [[1, 0], [0, 1]]) false = .error .shapeError ∧
      Pointset.init [[1, 2]] (some [[1, 0, 0], [0, 1, 0], [0, 0, 2]]) false
        = .error .invalidTransformError :=
  ⟨(pointset_init_validation_errors [[1, 2]] [[1, 0], [0, 1]] false (by decide)).1
      (by decide),
   (pointset_init_validation_errors [[1, 2]] [[1, 0, 0], [0, 1, 0], [0, 0, 2]] false
      (by decide)).2 (by decide) (by decide)⟩

/-- C4: `M @ P` (`__rmatmul__`) with a valid outer transform matrix of the
appropriate size returns a new `Pointset` whose affine is `M · P.affine`,
whose `coordinates` field is `P`'s coordinates themselves (shared, not
copied: `dataclasses.replace` passes the field through), and whose
`homogeneous` flag is unchanged; `P` itself is unmodified (`__rmatmul__` is a
pure function of `P` in this embedding). -/
theorem rmatmul_updates_affine_only (p : Pointset) (M : Mat)
    (hp : p.wf) (hM : validAffineFor p.dim M) :
    ∃ q : Pointset, Pointset.rmatmul M p = .ok q ∧
      q.coordinates = p.coordinates ∧ q.affine = matmul M p.affine ∧
      q.homogeneous = p.homogeneous :=
  ⟨⟨p.coordinates, matmul M p.affine, p.homogeneous⟩, rmatmul_ok M p hp hM, rfl, rfl, rfl⟩

theorem rmatmul_updates_affine_only_witness :
    ∃ q : Pointset, Pointset.rmatmul outerW pointsetW = .ok q ∧
      q.coordinates = pointsetW.coordinates ∧ q.affine = matmul outerW pointsetW.affine ∧
      q.homogeneous = pointsetW.homogeneous :=
  rmatmul_updates_affine_only pointsetW outerW (by decide) (by decide)

/-- C5: composing two valid affines one at a time (`A @ (B @ P)`) and composing
them first (`(A @ B) @ P`) produce pointsets with exactly equal `get_coords`
results (the embedding is exact rational arithmetic, so equality holds
exactly, a fortiori within floating tolerance). -/
theorem affine_composition_associative (p : Pointset) (A B : Mat) (ah : Bool)
    (hp : p.wf) (hA : validAffineFor p.dim A) (hB : validAffineFor p.dim B) :
    ((Pointset.rmatmul B p).bind (Pointset.rmatmul A)).map (fun q => q.get_coords ah)
      = (Pointset.rmatmul (matmul A B) p).map (fun q => q.get_coords ah) := by
  have hBok := rmatmul_ok B p hp hB
  have hqwf : (⟨p.coordinates, matmul B p.affine, p.homogeneous⟩ : Pointset).wf :=
    ⟨hp.1, validAffineFor_matmul p.dim B p.affine hB hp.2⟩
  have hAok := rmatmul_ok A ⟨p.coordinates, matmul B p.affine, p.homogeneous⟩ hqwf hA
  have hABok := rmatmul_ok (matmul A B) p hp (validAffineFor_matmul p.dim A B hA hB)
  have hbc : ncols B = p.affine.length := by
    rw [validAffineFor_ncols p.dim B hB, hp.2.1]
  have hbpos : 0 < B.length := by
    rw [hB.1]
    omega
  rw [hBok]
  show ((Pointset.rmatmul A ⟨p.coordinates, matmul B p.affine, p.homogeneous⟩).map
      fun q => q.get_coords ah) = _
  rw [hAok, hABok]
  show Except.ok (Pointset.get_coords
      ⟨p.coordinates, matmul A (matmul B p.affine), p.homogeneous⟩ ah)
    = Except.ok (Pointset.get_coords
      ⟨p.coordinates, matmul (matmul A B) p.affine, p.homogeneous⟩ ah)
  rw [← matmul_assoc A B p.affine hbc hbpos]

theorem affine_composition_associative_witness :
    ((Pointset.rmatmul outerW2 pointsetW).bind (Pointset.rmatmul outerW)).map
        (fun q => q.get_coords false)
      = (Pointset.rmatmul (matmul outerW outerW2) pointsetW).map
        (fun q => q.get_coords false) :=
  affine_composition_associative pointsetW outerW outerW2 false
    (by decide) (by decide) (by decide)

theorem homogeneous_coords_length (p : Pointset) :
    p.homogeneous_coords.length = p.coordinates.length := by
  unfold Pointset.homogeneous_coords
  by_cases h : p.homogeneous <;> simp [h]

theorem homogeneous_coords_rows (p : Pointset) (hrect : isRect p.coordinates)
    (hcols : p.homogeneous = true → 0 < ncols p.coordinates) :
    ∀ r ∈ p.homogeneous_coords, r.length = p.dim + 1 := by
  intro r hr
  have hdim : p.dim = dimOf p.coordinates p.homogeneous := rfl
  unfold Pointset.homogeneous_coords at hr
  cases hh : p.homogeneous with
  | true =>
    rw [hh] at hr
    simp only [if_true] at hr
    have h1 := hrect r hr
    have h2 := hcols hh
    rw [hdim, dimOf, hh]
    simp only [if_true]
    omega
  | false =>
    rw [hh] at hr
    simp only [Bool.false_eq_true, if_false] at hr
    obtain ⟨r', hr', rfl⟩ := List.mem_map.mp hr
    have h1 := hrect r' hr'
    rw [hdim, dimOf, hh]
    simp [h1]

theorem ncols_homogeneous_coords (p : Pointset) (hrect : isRect p.coordinates)
    (hcols : p.homogeneous = true → 0 < ncols p.coordinates)
    (hne : p.coordinates ≠ []) :
    ncols p.homogeneous_coords = p.dim + 1 := by
  have hlen : 0 < p.homogeneous_coords.length := by
    rw [homogeneous_coords_length]
    exact List.length_pos.mpr hne
  have hm : p.homogeneous_coords.getD 0 [] ∈ p.homogeneous_coords := by
    rw [List.getD_eq_getElem _ _ hlen]
    exact List.getElem_mem _
  exact homogeneous_coords_rows p hrect hcols _ hm

theorem length_transposeM (m : Mat) : (transposeM m).length = ncols m := by
  simp [transposeM]

theorem transposeM_rows (m : Mat) (r : List ℚ) (hr : r ∈ transposeM m) :
    r.length = m.length := by
  unfold transposeM at hr
  obtain ⟨j, _, rfl⟩ := List.mem_map.mp hr
  simp

theorem ncols_transposeM (m : Mat) (h : 0 < ncols m) :
    ncols (transposeM m) = m.length := by
  show ((transposeM m).getD 0 []).length = m.length
  unfold transposeM
  rw [List.getD_eq_getElem _ _ (by simpa using h), List.getElem_map, List.getElem_range]
  simp

theorem applyT_length (A C : Mat) (hA : 0 < A.length) (hC : 0 < ncols C) :
    (transposeM (matmul A (transposeM C))).length = C.length := by
  rw [length_transposeM, ncols_matmul _ _ hA, ncols_transposeM _ hC]

theorem applyT_rows (A C : Mat) (r : List ℚ)
    (hr : r ∈ transposeM (matmul A (transposeM C))) :
    r.length = A.length := by
  rw [transposeM_rows _ _ hr, length_matmul]

theorem applyT_nil (A : Mat) : transposeM (matmul A (transposeM [])) = [] := by
  have h1 : transposeM ([] : Mat) = [] := by simp [transposeM, ncols]
  rw [h1]
  rcases Nat.eq_zero_or_pos A.length with hA | hA
  · have h2 : matmul A [] = [] := by
      unfold matmul
      rw [hA]
      rfl
    rw [h2, h1]
  · have h2 : ncols (matmul A []) = 0 := by
      rw [ncols_matmul _ _ hA]
      rfl
    unfold transposeM
    rw [h2]
    rfl

theorem get_coords_eq_spec (p : Pointset) (ah : Bool) :
    p.get_coords ah = get_coords_spec p ah := by
  unfold Pointset.get_coords get_coords_spec Pointset.homogeneous_coords
  by_cases hid : np_allclose p.affine (eyeQ p.affine.length) = true
  · cases hh : p.homogeneous <;> cases hah : ah <;>
      simp [hid, hh, hah, List.map_map, Function.comp_def, List.dropLast_concat]
  · rw [Bool.not_eq_true] at hid
    cases hh : p.homogeneous <;> cases hah : ah <;> simp [hid, hh, hah]

theorem get_coords_unfold (p : Pointset) (ah : Bool) :
    p.get_coords ah =
      if p.homogeneous == ah && np_allclose p.affine (eyeQ p.affine.length)
      then p.coordinates
      else
        if !ah then
          (if !(np_allclose p.affine (eyeQ p.affine.length))
           then transposeM (matmul p.affine (transposeM p.homogeneous_coords))
           else p.homogeneous_coords).map List.dropLast
        else
          if !(np_allclose p.affine (eyeQ p.affine.length))
          then transposeM (matmul p.affine (transposeM p.homogeneous_coords))
          else p.homogeneous_coords := rfl

theorem get_coords_matches_contract (p : Pointset) (ah : Bool) (hp : p.wf)
    (hcols : p.homogeneous = true → 0 < ncols p.coordinates) :
    p.get_coords ah = get_coords_spec p ah ∧
    (p.get_coords ah).length = p.coordinates.length ∧
    ∀ r ∈ p.get_coords ah, r.length = p.dim + (if ah then 1 else 0) := by
  obtain ⟨hrect, haff⟩ := hp
  have hTlen : (if !(np_allclose p.affine (eyeQ p.affine.length))
      then transposeM (matmul p.affine (transposeM p.homogeneous_coords))
      else p.homogeneous_coords).length = p.coordinates.length := by
    by_cases hb : np_allclose p.affine (eyeQ p.affine.length) = true
    · simp [hb, homogeneous_coords_length]
    · rw [Bool.not_eq_true] at hb
      simp only [hb, Bool.not_false, if_true]
      by_cases hne : p.coordinates = []
      · have hh : p.homogeneous = false := by
          cases hhh : p.homogeneous
          · rfl
          · exact absurd (hcols hhh) (by simp [hne, ncols])
        have hhc : p.homogeneous_coords = [] := by
          unfold Pointset.homogeneous_coords
          rw [hh]
          simp [hne]
        rw [hhc, applyT_nil, hne]
      · rw [applyT_length _ _ (by rw [haff.1]; omega)
            (by rw [ncols_homogeneous_coords p hrect hcols hne]; omega),
          homogeneous_coords_length]
  have hTrows : ∀ r ∈ (if !(np_allclose p.affine (eyeQ p.affine.length))
      then transposeM (matmul p.affine (transposeM p.homogeneous_coords))
      else p.homogeneous_coords), r.length = p.dim + 1 := by
    intro r hr
    by_cases hb : np_allclose p.affine (eyeQ p.affine.length) = true
    · rw [hb] at hr
      simp only [Bool.not_true, if_false] at hr
      exact homogeneous_coords_rows p hrect hcols r hr
    · rw [Bool.not_eq_true] at hb
      rw [hb] at hr
      simp only [Bool.not_false, if_true] at hr
      rw [applyT_rows _ _ _ hr, haff.1]
  refine ⟨get_coords_eq_spec p ah, ?_, ?_⟩
  · rw [get_coords_unfold]
    by_cases hfast : (p.homogeneous == ah && np_allclose p.affine (eyeQ p.affine.length)) = true
    · rw [if_pos hfast]
    · rw [if_neg hfast]
      cases hah : ah
      · simp only [Bool.not_false, if_true, List.length_map]
        exact hTlen
      · simp only [Bool.not_true, if_false]
        exact hTlen
  · rw [get_coords_unfold]
    by_cases hfast : (p.homogeneous == ah && np_allclose p.affine (eyeQ p.affine.length)) = true
    · rw [if_pos hfast]
      have hbeq : p.homogeneous = ah := by
        have h0 := (Bool.and_eq_true _ _).mp hfast
        exact beq_iff_eq.mp h0.1
      intro r hr
      have h1 := hrect r hr
      have hd : p.dim = ncols p.coordinates - (if p.homogeneous then 1 else 0) := rfl
      cases hah : ah
      · rw [hah] at hbeq
        rw [hd, hbeq]
        simp only [Bool.false_eq_true, if_false]
        omega
      · rw [hah] at hbeq
        have h2 := hcols hbeq
        rw [hd, hbeq]
        simp only [if_true]
        omega
    · rw [if_neg hfast]
      cases hah : ah
      · simp only [Bool.not_false, if_true, Bool.false_eq_true, if_false]
        intro r hr
        obtain ⟨r', hr', rfl⟩ := List.mem_map.mp hr
        have hlen := hTrows r' hr'
        simp [List.length_dropLast, hlen]
      · simp only [Bool.not_true, if_false, if_true]
        intro r hr
        have hlen := hTrows r hr
        simp [hlen]

theorem get_coords_matches_contract_witness :
    pointsetW.get_coords false = get_coords_spec pointsetW false ∧
      (pointsetW.get_coords false).length = pointsetW.coordinates.length ∧
      ∀ r ∈ pointsetW.get_coords false, r.length = pointsetW.dim + (if false then 1 else 0) :=
  get_coords_matches_contract pointsetW false (by decide) (by decide)
theorem flatMap_congr_left {α β : Type} {l : List α} {f g : α → List β}
    (h : ∀ a ∈ l, f a = g a) : l.flatMap f = l.flatMap g := by
  induction l with
  | nil => rfl
  | cons x xs ih =>
    rw [List.flatMap_cons, List.flatMap_cons, h x (List.mem_cons_self x xs),
      ih fun a ha => h a (List.mem_cons_of_mem x ha)]

theorem map_range_mul (s k : ℕ) (f : ℕ → List ℕ) :
    (List.range (s * k)).map f =
      (List.range s).flatMap fun i => (List.range k).map fun j => f (i * k + j) := by
  induction s with
  | zero =>
    rw [Nat.zero_mul]
    rfl
  | succ s ih =>
    rw [Nat.succ_mul, List.range_add, List.map_append, List.range_succ,
      List.flatMap_append, ih]
    congr 1
    rw [List.flatMap_cons, List.flatMap_nil, List.append_nil, List.map_map]
    rfl

theorem gridArray_eq (shape : List ℕ) :
    gridArray shape = (List.range (listProd shape)).map (rowMajorIndex shape) := by
  induction shape with
  | nil => rfl
  | cons s rest ih =>
    show (List.range s).flatMap _ = (List.range (listProd (s :: rest))).map _
    rw [show listProd (s :: rest) = s * listProd rest from rfl]
    rw [map_range_mul s (listProd rest) (rowMajorIndex (s :: rest))]
    rcases Nat.eq_zero_or_pos (listProd rest) with hk | hk
    · have hnil : gridArray rest = [] := by
        rw [ih, hk]
        rfl
      refine flatMap_congr_left fun i _ => ?_
      rw [hnil, hk]
      rfl
    · refine flatMap_congr_left fun i _ => ?_
      rw [ih, List.map_map]
      refine List.map_congr_left fun j hj => ?_
      rw [List.mem_range] at hj
      show i :: rowMajorIndex rest j =
        (i * listProd rest + j) / listProd rest ::
          rowMajorIndex rest ((i * listProd rest + j) % listProd rest)
      have hdiv : (i * listProd rest + j) / listProd rest = i := by
        rw [Nat.add_comm, Nat.mul_comm, Nat.add_mul_div_left _ _ hk,
          Nat.div_eq_of_lt hj, Nat.zero_add]
      have hmod : (i * listProd rest + j) % listProd rest = j := by
        rw [Nat.add_comm, Nat.mul_comm, Nat.add_mul_mod_self_left, Nat.mod_eq_of_lt hj]
      rw [hdiv, hmod]

theorem rowMajorIndex_length (shape : List ℕ) (i : ℕ) :
    (rowMajorIndex shape i).length = shape.length := by
  induction shape generalizing i with
  | nil => rfl
  | cons s rest ih => simp [rowMajorIndex, ih]

theorem length_gridArray (shape : List ℕ) : (gridArray shape).length = listProd shape := by
  rw [gridArray_eq]
  simp

theorem gridArray_rows (shape : List ℕ) :
    ∀ row ∈ gridArray shape, row.length = shape.length := by
  intro row hrow
  rw [gridArray_eq] at hrow
  obtain ⟨i, _, rfl⟩ := List.mem_map.mp hrow
  exact rowMajorIndex_length shape i

/-- C7: materialising the lazy grid index (`GridIndices.__array__`) produces,
on every call, a dense array of `prod(gridshape)` rows, each of
`len(gridshape)` entries, whose row `i` is the `i`-th tuple in row-major
(`"ij"`) order over the per-axis ranges `[0, extent_j)`; for shape `(2, 3)`
the result is exactly `[[0,0],[0,1],[0,2],[1,0],[1,1],[1,2]]`.  The result is
a pure, deterministic function of the grid shape (`__array__` recomputes it
each call and caches nothing; in this embedding it is literally a function,
and `dtype` only selects the integer element type, not the values). -/
theorem gridindices_array_row_major :
    (∀ g : GridIndices,
      g.toArray = (List.range (listProd g.gridshape)).map (rowMajorIndex g.gridshape) ∧
      g.toArray.length = g.shape.1 ∧
      ∀ row ∈ g.toArray, row.length = g.shape.2) ∧
    GridIndices.toArray ⟨[2, 3]⟩ = [[0, 0], [0, 1], [0, 2], [1, 0], [1, 1], [1, 2]] :=
  ⟨fun g => ⟨gridArray_eq g.gridshape, length_gridArray g.gridshape,
    gridArray_rows g.gridshape⟩, rfl⟩

theorem gridindices_array_row_major_witness :
    ([1, 2] : List ℕ).length = (GridIndices.shape ⟨[2, 3]⟩).2 :=
  (gridindices_array_row_major.1 ⟨[2, 3]⟩).2.2 [1, 2] (by decide)

/-- C10: `TriangularMesh` construction accepts exactly the three recognised
input shapes — a 2-tuple `(coords, triangles)`, an object with
`.coords`/`.triangles` attributes, and an object with a `.get_mesh()`
accessor — producing equal results for equivalent data, and raises
`ValueError` (the spec taxonomy's `UnsupportedInputError`) for an input
matching none of the three, e.g. a dict or a tuple of wrong arity. -/
theorem triangular_mesh_dispatch (c t : Mat) :
    (∃ p : Pointset, Pointset.init c none false = .ok p ∧
      TriangularMesh.init (.pair c t) = .ok ⟨p, t⟩ ∧
      TriangularMesh.init (.attrObj c t) = .ok ⟨p, t⟩ ∧
      TriangularMesh.init (.accessorObj c t) = .ok ⟨p, t⟩) ∧
    TriangularMesh.init .dictInput = .error .valueError ∧
    TriangularMesh.init (.tuple3 c t t) = .error .valueError := by
  refine ⟨⟨⟨c, eyeQ (dimOf c false + 1), false⟩, init_default_ok c false, ?_, ?_, ?_⟩,
    rfl, rfl⟩ <;>
  simp [TriangularMesh.init, init_default_ok, Except.map]

/-- C3 (code bug): constructing a `TriMeshFamily` from a nonempty mapping
raises `TypeError` instead of succeeding: `__init__` calls
`TriangularMesh(mesh).get_mesh()`, `get_mesh` calls
`self.get_coords(name=name)`, and `Pointset.get_coords` (not overridden by
`TriangularMesh`) accepts only the keyword `as_homogeneous`, so the `name`
keyword is rejected.  Evaluated here on the spec's own example mapping
`{"a": mesh1, "b": mesh2}`. -/
theorem trimeshfamily_construction_raises_typeerror :
    TriMeshFamily.init
        [("a", MeshInput.pair meshCoordsW meshTrianglesW),
         ("b", MeshInput.pair meshCoordsW2 meshTrianglesW)] none
      = .error .typeError := by
  rfl

/-- C2 (code bug): the mask → `Grid` → mask round trip does not reproduce the
original true positions.  `to_mask` executes
`mask_arr[coords[:, :dim]] = True`, which indexes axis 0 with the whole 2-D
coordinate array and therefore sets entire rows: for the 2×2 mask with a
single true at (0, 1), `from_mask` stores the coordinate `[0, 1]` and
`to_mask(shape=(2, 2))` sets rows 0 and 1 entirely true, yielding the
all-true mask instead of the original. -/
theorem from_mask_to_mask_roundtrip_fails :
    mask_roundtrip [[false, true], [false, false]] (eyeQ 3)
        = .ok [[true, true], [true, true]] ∧
      ([[true, true], [true, true]] : List (List Bool)) ≠ [[false, true], [false, false]] := by
  constructor
  · rfl
  · decide

/-- C9 (code bug): `to_mask()` without a shape computes
`tuple(np.max(self.coordinates, axis=1)[: self.dim])` — the first `dim`
PER-ROW maxima — not the per-axis maximum the claim (and the spec) describe.
For the grid holding the integer coordinates `[[0, 0], [2, 1]]` the code's
default shape is `(0, 2)` (row maxima, depending on the number of points)
while the claimed per-axis maximum over the first `dim` axes is `(2, 1)`. -/
theorem to_mask_default_shape_wrong :
    ∃ g : Pointset,
      Pointset.init [[0, 0], [2, 1]] (some (eyeQ 3)) false = .ok g ∧
      Grid.to_mask_default_shape g = [0, 2] ∧
      to_mask_shape_spec g = [2, 1] ∧
      Grid.to_mask_default_shape g ≠ to_mask_shape_spec g :=
  ⟨⟨[[0, 0], [2, 1]], eyeQ 3, false⟩, by rfl, by rfl, by rfl, by decide⟩
